import Mathlib

/-!
Shallow embedding of the data-extraction pipeline
(`src/data_extraction_tool.js`): JS value model, column mapper,
field normalizers, cleaning step, deduplication, and the upload
handler's per-branch orchestration, together with theorems settling
the specification claims.
-/

namespace DataExtraction

/-- Model of the JS scalar values that flow through the pipeline's rows:
strings, numbers, `null`, and `undefined` (absent property). -/
inductive JsVal where
  | vStr (s : String)
  | vNum (n : Int)
  | vNull
  | vUndef
deriving DecidableEq

/-- A JS object as an association list from property name to value,
in property-insertion order (as `Object.keys`/`Object.values` iterate). -/
abbrev Row := List (String × JsVal)

/-- Property read `row[k]`: the stored value, or `undefined` when absent. -/
def jsGet (r : Row) (k : String) : JsVal :=
  (((r.find? (fun kv => kv.1 = k)).map (fun kv => kv.2)).getD JsVal.vUndef)

/-- `k in row`: whether the property is present (even if its value is
`undefined`). -/
def jsHasKey (r : Row) (k : String) : Bool :=
  r.any (fun kv => kv.1 = k)

/-- Shared association-list update modelling both JS property
assignment (`obj[k] = v`) and `Map.prototype.set`: overwrite in place
when the key is present (position unchanged), append otherwise. -/
def assocSet {α : Type} (m : List (String × α)) (k : String) (v : α) :
    List (String × α) :=
  if m.any (fun kv => kv.1 = k) then m.map (fun kv => if kv.1 = k then (k, v) else kv)
  else m ++ [(k, v)]

/-- Property write `row[k] = v`. -/
def jsSet (r : Row) (k : String) (v : JsVal) : Row :=
  assocSet r k v

/-- `Object.keys(row)`. -/
def keys (r : Row) : List String := r.map (fun kv => kv.1)

/-- `Object.values(row)`. -/
def jsValues (r : Row) : List JsVal := r.map (fun kv => kv.2)

/-- JS truthiness of the scalar values in our model. -/
def jsTruthy : JsVal → Bool
  | JsVal.vStr s => s ≠ ""
  | JsVal.vNum n => n ≠ 0
  | JsVal.vNull => false
  | JsVal.vUndef => false

/-- JS `String(v)` / template-literal coercion on our scalar values. -/
def jsToString : JsVal → String
  | JsVal.vStr s => s
  | JsVal.vNum n => toString n
  | JsVal.vNull => "null"
  | JsVal.vUndef => "undefined"

/-- The whitespace characters recognised by JS `\s`, `trim` and friends,
restricted to the ASCII range plus NBSP/BOM (the inputs in scope are
ASCII, per the spec's non-goals). -/
def isJsSpace (c : Char) : Bool :=
  c.toNat = 32 || c.toNat = 9 || c.toNat = 10 || c.toNat = 13 ||
  c.toNat = 11 || c.toNat = 12 || c.toNat = 160 || c.toNat = 65279

/-- `String.prototype.trim` on a character list. -/
def jsTrimList (l : List Char) : List Char :=
  ((l.dropWhile isJsSpace).reverse.dropWhile isJsSpace).reverse

/-- `String.prototype.trim`. -/
def jsTrim (s : String) : String :=
  String.mk (jsTrimList s.toList)

/-- ASCII letter, as matched by the regex class `[a-zA-Z]`. -/
def isAsciiAlpha (c : Char) : Bool :=
  ('a' ≤ c && c ≤ 'z') || ('A' ≤ c && c ≤ 'Z')

/-- ASCII digit, as matched by the regex class `\d`. -/
def isDigitChar (c : Char) : Bool :=
  '0' ≤ c && c ≤ '9'

/-! ## Configuration (`TARGET_COLUMNS`, `COLUMN_MAPPINGS`) -/

/-- `TARGET_COLUMNS` from the source. -/
def TARGET_COLUMNS : List String := ["DATE", "FULL NAME", "CONTACT", "ADDRESS"]

/-- `COLUMN_MAPPINGS` from the source, as `Object.entries` iterates it
(string-key insertion order). -/
def COLUMN_MAPPINGS : List (String × List String) :=
  [("DATE", ["date", "dob", "time", "created_at", "joined", "day"]),
   ("FULL NAME", ["name", "fullname", "client", "customer", "first name", "last name", "user"]),
   ("CONTACT", ["phone", "mobile", "cell", "tel", "contact number", "number"]),
   ("ADDRESS", ["address", "location", "residence", "city", "street"])]

/-! ## Column mapper (`aiMapColumn`) -/

/-- `String(header).toLowerCase().trim()` at the top of `aiMapColumn`. -/
def normalizeHeader (h : String) : String :=
  jsTrim (String.mk (h.toList.map Char.toLower))

/-- Tier 1 of `aiMapColumn`: the loop returning the first target whose
synonym list contains the normalized header. -/
def exactTier (h : String) : Option String :=
  COLUMN_MAPPINGS.findSome? (fun e => if h ∈ e.2 then some e.1 else none)

/-- State of the fuzzy-matching loop: `bestMatch` and `highestScore`. -/
structure FuzzyState where
  best : Option String
  highest : Rat

/-- Tier 2 of `aiMapColumn`: the Fuse.js loop. The library call
`fuse.search(header)` is external to the repository, so it is a
parameter `fscore` giving `results[0].score` (a number in `[0,1]`,
`none` when `results` is empty); the surrounding loop — the score
formula `(1 - score) * 100`, the `> 80` threshold and the
strictly-improving best tracking — is the source's own code. -/
def fuzzyStep (fscore : List String → String → Option Rat) (h : String)
    (st : FuzzyState) (e : String × List String) : FuzzyState :=
  match fscore e.2 h with
  | none => st
  | some s0 =>
    let score : Rat := (1 - s0) * 100
    if score > 80 ∧ score > st.highest then ⟨some e.1, score⟩ else st

/-- The fuzzy loop over `Object.entries(COLUMN_MAPPINGS)`. -/
def fuzzyTier (fscore : List String → String → Option Rat) (h : String) : Option String :=
  (COLUMN_MAPPINGS.foldl (fuzzyStep fscore h) ⟨none, 0⟩).best

/-- `aiMapColumn`: exact tier first, fuzzy tier only when it fails. -/
def aiMapColumn (fscore : List String → String → Option Rat) (header : String) :
    Option String :=
  match exactTier (normalizeHeader header) with
  | some t => some t
  | none => fuzzyTier fscore (normalizeHeader header)

/-! ## Field normalizers -/

/-- Civil date (year, month, day) from a days-since-epoch count
(proleptic Gregorian), as `Date.prototype.toISOString` renders it. -/
def civilFromDays (z0 : Int) : Int × Int × Int :=
  let z := z0 + 719468
  let era := Int.fdiv z 146097
  let doe := z - era * 146097
  let yoe := Int.fdiv (doe - Int.fdiv doe 1460 + Int.fdiv doe 36524 - Int.fdiv doe 146096) 365
  let y := yoe + era * 400
  let doy := doe - (365 * yoe + Int.fdiv yoe 4 - Int.fdiv yoe 100)
  let mp := Int.fdiv (5 * doy + 2) 153
  let d := doy - Int.fdiv (153 * mp + 2) 5 + 1
  let m := mp + (if mp < 10 then 3 else -9)
  (y + (if m ≤ 2 then 1 else 0), m, d)

/-- Zero-pad to two digits. -/
def pad2 (n : Int) : String :=
  if n < 10 then "0" ++ toString n else toString n

/-- Zero-pad to four digits. -/
def pad4 (n : Int) : String :=
  if n < 10 then "000" ++ toString n
  else if n < 100 then "00" ++ toString n
  else if n < 1000 then "0" ++ toString n
  else toString n

/-- The date portion of `toISOString` for a time value in milliseconds
since the epoch: `YYYY-MM-DD` in UTC (what `split('T')[0]` keeps). -/
def msToISODate (ms : Int) : String :=
  let days := Int.fdiv ms 86400000
  let ymd := civilFromDays days
  pad4 ymd.1 ++ "-" ++ pad2 ymd.2.1 ++ "-" ++ pad2 ymd.2.2

/-- `cleanDate`. `new Date(val)` follows ECMAScript: `null` coerces to
time value `0` (the epoch), `undefined` to `NaN` (an invalid date,
hence `null`), a number is its own time value when inside the
representable range, and a string goes through the engine's
`Date.parse` — an external collaborator modelled by the parameter `p`
(milliseconds since epoch on success, `none` on failure). -/
def cleanDate (p : String → Option Int) : JsVal → JsVal
  | JsVal.vNull => JsVal.vStr (msToISODate 0)
  | JsVal.vUndef => JsVal.vNull
  | JsVal.vNum n =>
    if n.natAbs ≤ 8640000000000000 then JsVal.vStr (msToISODate n) else JsVal.vNull
  | JsVal.vStr s =>
    match p s with
    | some ms => if ms.natAbs ≤ 8640000000000000 then JsVal.vStr (msToISODate ms) else JsVal.vNull
    | none => JsVal.vNull

/-- JS `String.prototype.split` with a single-character separator: cut
at every occurrence, keeping empty pieces (`''.split(x) = ['']`). -/
def splitOnChar (sep : Char) : List Char → List (List Char)
  | [] => [[]]
  | c :: rest =>
    if c = sep then [] :: splitOnChar sep rest
    else
      match splitOnChar sep rest with
      | [] => [[c]]
      | w :: ws => (c :: w) :: ws

/-- JS `s.split(sep)` on strings. -/
def jsSplit (s : String) (sep : Char) : List String :=
  (splitOnChar sep s.toList).map String.mk

/-- `clean.split(' ')` — JS `split` with the single-character separator
`' '` cuts at every space, keeping empty pieces. -/
def splitOnSpace : List Char → List (List Char)
  | [] => [[]]
  | c :: rest =>
    if c = ' ' then [] :: splitOnSpace rest
    else
      match splitOnSpace rest with
      | [] => [[c]]
      | w :: ws => (c :: w) :: ws

/-- `w.charAt(0).toUpperCase() + w.slice(1).toLowerCase()`. -/
def titleCase : List Char → List Char
  | [] => []
  | c :: rest => Char.toUpper c :: rest.map Char.toLower

/-- `Array.prototype.join(' ')`. -/
def joinSpace : List (List Char) → List Char
  | [] => []
  | [w] => w
  | w :: ws => w ++ ' ' :: joinSpace ws

/-- The regex replace `val.replace(/[^a-zA-Z\s]/g, '')` followed by
`.trim()` in `cleanName`. -/
def stripAndTrim (s : String) : List Char :=
  jsTrimList (s.toList.filter (fun c => isAsciiAlpha c || isJsSpace c))

/-- `cleanName`: non-strings give `null`; otherwise strip everything but
ASCII letters and whitespace, trim, return `null` on the empty string,
else split on single spaces, title-case each piece and re-join with
single spaces. -/
def cleanName : JsVal → JsVal
  | JsVal.vStr s =>
    let clean := stripAndTrim s
    if clean = [] then JsVal.vNull
    else JsVal.vStr (String.mk (joinSpace ((splitOnSpace clean).map titleCase)))
  | _ => JsVal.vNull

/-- `cleanPhone`: `null`/`undefined` give `null`; otherwise keep the
digit characters of `String(val)` and require strictly more than 5. -/
def cleanPhone : JsVal → JsVal
  | JsVal.vNull => JsVal.vNull
  | JsVal.vUndef => JsVal.vNull
  | v =>
    let digits := (jsToString v).toList.filter isDigitChar
    if digits.length > 5 then JsVal.vStr (String.mk digits) else JsVal.vNull

/-! ## Cleaning step (`cleanedData = allData.map(...)`) -/

/-- The `DATA_STATUS` expression: `Object.values(row).some(v => v === null)`
on the input row of the map (strict equality, so `undefined` does not
count). -/
def dataStatus (row : Row) : JsVal :=
  if (jsValues row).any (fun v => v = JsVal.vNull) then JsVal.vStr "Missing Fields"
  else JsVal.vStr "Valid"

/-- One element of `cleanedData`: the object literal built from `row`. -/
def cleanRow (p : String → Option Int) (row : Row) : Row :=
  [("DATE", cleanDate p (jsGet row "DATE")),
   ("FULL NAME", cleanName (jsGet row "FULL NAME")),
   ("CONTACT", cleanPhone (jsGet row "CONTACT")),
   ("ADDRESS", if jsTruthy (jsGet row "ADDRESS") then jsGet row "ADDRESS" else JsVal.vNull),
   ("DATA_STATUS", dataStatus row)]

/-- A stand-in engine date parser that accepts no string; the theorems
that use it do not depend on any string parse (their inputs reach
`cleanDate` only as `null`/`undefined`/absent). -/
def noParse : String → Option Int := fun _ => none

/-- A stand-in Fuse.js scorer that returns no result; the theorems that
use it do not depend on any fuzzy score. -/
def noScore : List String → String → Option Rat := fun _ _ => none

/-! ## Deduplication (`new Map(cleanedData.map(...)).values()`) -/

/-- The template literal building the identity key. -/
def identityKey (row : Row) : String :=
  jsToString (jsGet row "FULL NAME") ++ "-" ++ jsToString (jsGet row "CONTACT") ++ "-" ++
    jsToString (jsGet row "DATE")

/-- `Map.prototype.set`: update the value in place when the key is
present (its position is unchanged), append otherwise. -/
def mapSet (m : List (String × Row)) (k : String) (v : Row) : List (String × Row) :=
  assocSet m k v

/-- The `Map` built by the `new Map(cleanedData.map(row => [key, row]))`
constructor, which calls `set` for each pair in order. -/
def dedupeMap (rows : List Row) : List (String × Row) :=
  rows.foldl (fun m row => mapSet m (identityKey row) row) []

/-- `Array.from(map.values())`: one surviving record per identity key. -/
def dedupe (rows : List Row) : List Row :=
  (dedupeMap rows).map (fun kv => kv.2)

/-! ## Zip branch of the upload handler -/

/-- The object assignment `renamedCols[col] = mapped`. -/
def strSet (m : List (String × String)) (k v : String) : List (String × String) :=
  assocSet m k v

/-- Build `renamedCols` from a table's first-row headers. -/
def buildRenamedCols (fscore : List String → String → Option Rat) (headers : List String) :
    List (String × String) :=
  headers.foldl
    (fun acc col =>
      match aiMapColumn fscore col with
      | some m => strSet acc col m
      | none => acc)
    []

/-- The body of `df.map(row => ...)` in the zip branch: copy each
renamed column's value into `newRow`, then set every `TARGET_COLUMNS`
entry not yet present (`!(col in newRow)`) to `null`. -/
def mapZipRow (renamed : List (String × String)) (row : Row) : Row :=
  TARGET_COLUMNS.foldl
    (fun nr col => if jsHasKey nr col then nr else jsSet nr col JsVal.vNull)
    (renamed.foldl (fun nr oc => jsSet nr oc.2 (jsGet row oc.1)) [])

/-- Per-table processing in the zip branch: compute `renamedCols` once
from the first row's keys, then reshape every row. -/
def mapTable (fscore : List String → String → Option Rat) (df : List Row) : List Row :=
  let renamed := buildRenamedCols fscore (keys (df.headD []))
  df.map (mapZipRow renamed)

/-- One entry of the zip archive, as the per-file loop sees it:
a table that decoded successfully, a file whose decoding threw (the
`catch` logs and falls through), or a file skipped before decoding
(`__MACOSX`, directories, unsupported extensions hit `continue`). -/
inductive ZipEntry where
  | decoded (df : List Row)
  | failed
  | skipped

/-- The zip branch's per-file loop: accumulate `allData` and
`filesProcessed`. A `failed` entry reaches the `catch` and contributes
nothing; a `skipped` entry contributes nothing; the function is total,
so no error escapes to the response. -/
def processZip (fscore : List String → String → Option Rat) (entries : List ZipEntry) :
    List Row × Nat :=
  entries.foldl
    (fun acc e =>
      match e with
      | ZipEntry.decoded df => (acc.1 ++ mapTable fscore df, acc.2 + 1)
      | ZipEntry.failed => acc
      | ZipEntry.skipped => acc)
    ([], 0)

/-- The tables of the successfully decoded entries, in order. -/
def decodedTables : List ZipEntry → List (List Row)
  | [] => []
  | ZipEntry.decoded df :: es => df :: decodedTables es
  | ZipEntry.failed :: es => decodedTables es
  | ZipEntry.skipped :: es => decodedTables es

/-! ## Single-file branches and the cleaning/dedup tail -/

/-- `parseCSV`: trim the text, split into lines, take the first line's
comma-separated trimmed cells as headers, and turn each later line into
an object, `obj[h] = values[i] || null` (so an empty or missing cell
becomes `null`). -/
def parseCSV (csv : String) : List Row :=
  let lines := jsSplit (jsTrim csv) '\n'
  let headers := (jsSplit (lines.headD "") ',').map jsTrim
  (lines.drop 1).map
    (fun line =>
      let vals := (jsSplit line ',').map jsTrim
      headers.enum.foldl
        (fun obj hi =>
          jsSet obj hi.2
            (match vals.get? hi.1 with
             | some v => if v = "" then JsVal.vNull else JsVal.vStr v
             | none => JsVal.vNull))
        [])

/-- The `.csv` single-file branch: `allData = parseCSV(...)`,
`filesProcessed = 1`, with no column mapping and no reshaping. -/
def processSingleCsv (text : String) : List Row × Nat :=
  (parseCSV text, 1)

/-- The shared tail of the upload handler: clean every accumulated row,
then deduplicate. -/
def cleanAndDedupe (p : String → Option Int) (allData : List Row) : List Row :=
  dedupe (allData.map (cleanRow p))

/-! ## Association-list lemmas -/

theorem assocAny_iff {α : Type} (m : List (String × α)) (k : String) :
    m.any (fun kv => kv.1 = k) = true ↔ k ∈ m.map (fun kv => kv.1) := by
  rw [List.any_eq_true]
  simp only [List.mem_map, decide_eq_true_eq]

theorem fst_assocSet {α : Type} (m : List (String × α)) (k : String) (v : α) :
    (assocSet m k v).map (fun kv => kv.1) =
      if m.any (fun kv => kv.1 = k) then m.map (fun kv => kv.1)
      else m.map (fun kv => kv.1) ++ [k] := by
  unfold assocSet
  by_cases h : m.any (fun kv => kv.1 = k) = true
  · rw [if_pos h, if_pos h, List.map_map]
    apply List.map_congr_left
    intro kv _
    by_cases hk : kv.1 = k
    · simp [hk]
    · simp [hk]
  · rw [if_neg h, if_neg h]
    simp

theorem find?_map_update {α : Type} (k : String) (v : α) :
    ∀ (m : List (String × α)), m.any (fun kv => kv.1 = k) = true →
      (m.map (fun kv => if kv.1 = k then (k, v) else kv)).find? (fun kv => kv.1 = k) =
        some (k, v)
  | [], h => by simp at h
  | kv :: rest, h => by
    by_cases hk : kv.1 = k
    · rw [List.map_cons, if_pos hk, List.find?_cons_of_pos _ (by simp)]
    · rw [List.map_cons, if_neg hk,
        List.find?_cons_of_neg _ (by simp only [decide_eq_true_eq]; exact hk)]
      apply find?_map_update k v rest
      have := (List.any_cons ▸ h)
      simpa [hk] using this

theorem find?_assocSet_self {α : Type} (m : List (String × α)) (k : String) (v : α) :
    (assocSet m k v).find? (fun kv => kv.1 = k) = some (k, v) := by
  unfold assocSet
  by_cases h : m.any (fun kv => kv.1 = k) = true
  · rw [if_pos h]
    exact find?_map_update k v m h
  · rw [if_neg h, List.find?_append]
    have hnone : m.find? (fun kv => kv.1 = k) = none := by
      rw [List.find?_eq_none]
      intro x hx hpx
      exact h ((List.any_eq_true).mpr ⟨x, hx, hpx⟩)
    rw [hnone, List.find?_cons_of_pos _ (by simp)]
    rfl

theorem find?_map_update_ne {α : Type} (k : String) (v : α) (k' : String) (h : k' ≠ k) :
    ∀ (m : List (String × α)),
      (m.map (fun kv => if kv.1 = k then (k, v) else kv)).find? (fun kv => kv.1 = k') =
        m.find? (fun kv => kv.1 = k')
  | [] => by simp
  | kv :: rest => by
    by_cases hk : kv.1 = k
    · rw [List.map_cons, if_pos hk,
        List.find?_cons_of_neg _
          (by simp only [decide_eq_true_eq]; exact fun hc => h hc.symm),
        List.find?_cons_of_neg _
          (by simp only [decide_eq_true_eq, hk]; exact fun hc => h hc.symm)]
      exact find?_map_update_ne k v k' h rest
    · by_cases hk' : kv.1 = k'
      · rw [List.map_cons, if_neg hk,
          List.find?_cons_of_pos _ (by simp only [decide_eq_true_eq]; exact hk'),
          List.find?_cons_of_pos _ (by simp only [decide_eq_true_eq]; exact hk')]
      · rw [List.map_cons, if_neg hk,
          List.find?_cons_of_neg _ (by simp only [decide_eq_true_eq]; exact hk'),
          List.find?_cons_of_neg _ (by simp only [decide_eq_true_eq]; exact hk')]
        exact find?_map_update_ne k v k' h rest

theorem find?_assocSet_ne {α : Type} (m : List (String × α)) (k : String) (v : α)
    (k' : String) (h : k' ≠ k) :
    (assocSet m k v).find? (fun kv => kv.1 = k') = m.find? (fun kv => kv.1 = k') := by
  unfold assocSet
  by_cases hany : m.any (fun kv => kv.1 = k) = true
  · rw [if_pos hany]
    exact find?_map_update_ne k v k' h m
  · rw [if_neg hany, List.find?_append,
      List.find?_cons_of_neg _
        (by simp only [decide_eq_true_eq]; exact fun hc => h hc.symm)]
    simp

theorem mem_assocSet {α : Type} {m : List (String × α)} {k : String} {v : α}
    {x : String × α} (h : x ∈ assocSet m k v) : x = (k, v) ∨ x ∈ m := by
  unfold assocSet at h
  split at h
  · rcases List.mem_map.mp h with ⟨kv, hmem, hx⟩
    by_cases hk : kv.1 = k
    · left
      rw [if_pos hk] at hx
      exact hx.symm
    · right
      rw [if_neg hk] at hx
      exact hx ▸ hmem
  · rcases List.mem_append.mp h with hm | hm
    · right
      exact hm
    · left
      simpa using hm

theorem nodup_fst_assocSet {α : Type} {m : List (String × α)} {k : String} {v : α}
    (h : (m.map (fun kv => kv.1)).Nodup) :
    ((assocSet m k v).map (fun kv => kv.1)).Nodup := by
  rw [fst_assocSet]
  by_cases hany : m.any (fun kv => kv.1 = k) = true
  · rw [if_pos hany]
    exact h
  · rw [if_neg hany, List.nodup_append]
    have hnot : k ∉ m.map (fun kv => kv.1) := fun hc =>
      hany ((assocAny_iff m k).mpr hc)
    refine ⟨h, List.nodup_singleton k, ?_⟩
    intro a ha hb
    rw [List.mem_singleton] at hb
    exact hnot (hb ▸ ha)

theorem jsGet_jsSet_self (r : Row) (k : String) (v : JsVal) :
    jsGet (jsSet r k v) k = v := by
  unfold jsGet jsSet
  rw [find?_assocSet_self]
  rfl

theorem jsGet_jsSet_ne (r : Row) (k : String) (v : JsVal) (k' : String) (h : k' ≠ k) :
    jsGet (jsSet r k v) k' = jsGet r k' := by
  unfold jsGet jsSet
  rw [find?_assocSet_ne _ _ _ _ h]

theorem jsHasKey_iff (r : Row) (k : String) :
    jsHasKey r k = true ↔ k ∈ keys r :=
  assocAny_iff r k

theorem jsHasKey_jsSet (r : Row) (k : String) (v : JsVal) (k' : String) :
    jsHasKey (jsSet r k v) k' = true ↔ k' = k ∨ jsHasKey r k' = true := by
  rw [jsHasKey_iff, jsHasKey_iff]
  show k' ∈ (assocSet r k v).map (fun kv => kv.1) ↔ _
  rw [fst_assocSet]
  by_cases hany : r.any (fun kv => kv.1 = k) = true
  · rw [if_pos hany]
    constructor
    · exact Or.inr
    · rintro (rfl | hk)
      · exact (assocAny_iff _ _).mp hany
      · exact hk
  · rw [if_neg hany]
    rw [List.mem_append, List.mem_singleton]
    exact Iff.intro (fun h => h.symm.imp id id) (fun h => h.symm.imp id id)

/-! ## Deduplication characterization -/

/-- The identity keys of the input in order of first appearance — the
key order the `Map` constructor creates (stated from the claim's words,
to be compared with `dedupe`). -/
def firstSeenKeys (rows : List Row) : List String :=
  rows.foldl (fun acc r => if identityKey r ∈ acc then acc else acc ++ [identityKey r]) []

/-- The last record of the input carrying identity key `k` — the value
left in the `Map` after all overwrites (stated from the claim's words,
to be compared with `dedupe`). -/
def lastRecordWithKey (rows : List Row) (k : String) : Row :=
  ((rows.filter (fun r => identityKey r = k)).getLast?).getD []

theorem dedupeMap_concat (rows : List Row) (r : Row) :
    dedupeMap (rows ++ [r]) = mapSet (dedupeMap rows) (identityKey r) r := by
  unfold dedupeMap
  rw [List.foldl_append]
  rfl

theorem firstSeenKeys_concat (rows : List Row) (r : Row) :
    firstSeenKeys (rows ++ [r]) =
      if identityKey r ∈ firstSeenKeys rows then firstSeenKeys rows
      else firstSeenKeys rows ++ [identityKey r] := by
  unfold firstSeenKeys
  rw [List.foldl_append]
  rfl

theorem lastRecordWithKey_concat (rows : List Row) (r : Row) (k : String) :
    lastRecordWithKey (rows ++ [r]) k =
      if identityKey r = k then r else lastRecordWithKey rows k := by
  unfold lastRecordWithKey
  rw [List.filter_append]
  by_cases hk : identityKey r = k
  · rw [if_pos hk]
    have hf : List.filter (fun r => decide (identityKey r = k)) [r] = [r] := by
      simp [hk]
    rw [hf, List.getLast?_concat]
    rfl
  · rw [if_neg hk]
    have hf : List.filter (fun r => decide (identityKey r = k)) [r] = [] := by
      simp [hk]
    rw [hf, List.append_nil]

theorem dedupeMap_spec (rows : List Row) :
    dedupeMap rows = (firstSeenKeys rows).map (fun k => (k, lastRecordWithKey rows k)) := by
  induction rows using List.reverseRecOn with
  | nil => rfl
  | append_singleton rows r ih =>
    rw [dedupeMap_concat, firstSeenKeys_concat, ih]
    by_cases hmem : identityKey r ∈ firstSeenKeys rows
    · rw [if_pos hmem]
      show assocSet _ _ _ = _
      unfold assocSet
      have hany : ((firstSeenKeys rows).map
          (fun k => (k, lastRecordWithKey rows k))).any
            (fun kv => kv.1 = identityKey r) = true := by
        simp only [List.any_eq_true, decide_eq_true_eq]
        exact ⟨(identityKey r, lastRecordWithKey rows (identityKey r)),
          List.mem_map_of_mem _ hmem, rfl⟩
      rw [if_pos hany, List.map_map]
      apply List.map_congr_left
      intro k _
      by_cases hkr : k = identityKey r
      · subst hkr
        simp [lastRecordWithKey_concat]
      · have hrk : ¬(identityKey r = k) := fun hc => hkr hc.symm
        simp [hkr, lastRecordWithKey_concat, hrk]
    · rw [if_neg hmem]
      show assocSet _ _ _ = _
      unfold assocSet
      have hany : ((firstSeenKeys rows).map
          (fun k => (k, lastRecordWithKey rows k))).any
            (fun kv => kv.1 = identityKey r) = false := by
        simp only [List.any_eq_false, decide_eq_true_eq]
        intro x hx
        rcases List.mem_map.mp hx with ⟨k, hk, rfl⟩
        exact fun hc => hmem (hc ▸ hk)
      rw [if_neg (by rw [hany]; exact Bool.false_ne_true), List.map_append]
      congr 1
      · apply List.map_congr_left
        intro k hk
        have hrk : ¬(identityKey r = k) := fun hc => hmem (hc ▸ hk)
        rw [lastRecordWithKey_concat, if_neg hrk]
      · rw [List.map_singleton, lastRecordWithKey_concat, if_pos rfl]

theorem mem_dedupeFold (rows : List Row) :
    ∀ (m : List (String × Row)) (x : String × Row),
      x ∈ rows.foldl (fun m row => mapSet m (identityKey row) row) m →
      x ∈ m ∨ x.2 ∈ rows := by
  induction rows with
  | nil =>
    intro m x hx
    exact Or.inl hx
  | cons r rest ih =>
    intro m x hx
    rcases ih _ x hx with hm | hr
    · rcases mem_assocSet hm with hx' | hx'
      · right
        rw [hx']
        exact List.mem_cons_self r rest
      · left
        exact hx'
    · right
      exact List.mem_cons_of_mem r hr

theorem mem_dedupe {rows : List Row} {r : Row} (h : r ∈ dedupe rows) : r ∈ rows := by
  unfold dedupe dedupeMap at h
  rcases List.mem_map.mp h with ⟨kv, hkv, hr⟩
  rcases mem_dedupeFold rows [] kv hkv with hnil | hmem
  · exact absurd hnil (List.not_mem_nil kv)
  · exact hr ▸ hmem

/-! ## Name-normalizer lemmas -/

theorem splitOnSpace_ne_nil (l : List Char) : splitOnSpace l ≠ [] := by
  cases l with
  | nil => simp [splitOnSpace]
  | cons c rest =>
    unfold splitOnSpace
    by_cases hc : c = ' '
    · simp [hc]
    · rw [if_neg hc]
      rcases hs : splitOnSpace rest with _ | ⟨w, ws⟩
      · simp
      · simp

theorem joinSpace_splitOnSpace (l : List Char) : joinSpace (splitOnSpace l) = l := by
  induction l with
  | nil => rfl
  | cons c rest ih =>
    unfold splitOnSpace
    by_cases hc : c = ' '
    · rw [if_pos hc]
      subst hc
      rcases hs : splitOnSpace rest with _ | ⟨w, ws⟩
      · exact absurd hs (splitOnSpace_ne_nil rest)
      · rw [hs] at ih
        show [] ++ ' ' :: joinSpace (w :: ws) = ' ' :: rest
        rw [ih, List.nil_append]
    · rw [if_neg hc]
      rcases hs : splitOnSpace rest with _ | ⟨w, ws⟩
      · exact absurd hs (splitOnSpace_ne_nil rest)
      · rw [hs] at ih
        cases ws with
        | nil =>
          show c :: w = c :: rest
          rw [show joinSpace [w] = w from rfl] at ih
          rw [ih]
        | cons w' ws' =>
          show (c :: w) ++ ' ' :: joinSpace (w' :: ws') = c :: rest
          rw [show joinSpace (w :: w' :: ws') = w ++ ' ' :: joinSpace (w' :: ws') from rfl]
            at ih
          rw [List.cons_append, ih]

theorem titleCase_length (w : List Char) : (titleCase w).length = w.length := by
  cases w with
  | nil => rfl
  | cons c rest => simp [titleCase]

theorem joinSpace_map_titleCase_length :
    ∀ (ws : List (List Char)),
      (joinSpace (ws.map titleCase)).length = (joinSpace ws).length
  | [] => rfl
  | [w] => by
    show (titleCase w).length = w.length
    exact titleCase_length w
  | w :: w' :: ws => by
    show (titleCase w ++ ' ' :: joinSpace ((w' :: ws).map titleCase)).length =
      (w ++ ' ' :: joinSpace (w' :: ws)).length
    rw [List.length_append, List.length_append, titleCase_length,
      List.length_cons, List.length_cons, joinSpace_map_titleCase_length (w' :: ws)]

/-! ## Column-mapper lemmas -/

theorem fuzzyStep_best (fscore : List String → String → Option Rat) (h : String)
    (st : FuzzyState) (e : String × List String) :
    (fuzzyStep fscore h st e).best = st.best ∨ (fuzzyStep fscore h st e).best = some e.1 := by
  unfold fuzzyStep
  rcases fscore e.2 h with _ | s0
  · exact Or.inl rfl
  · dsimp only
    split
    · exact Or.inr rfl
    · exact Or.inl rfl

theorem fuzzyFold_best (fscore : List String → String → Option Rat) (h : String) :
    ∀ (l : List (String × List String)) (st : FuzzyState),
      (l.foldl (fuzzyStep fscore h) st).best = st.best ∨
        ∃ e ∈ l, (l.foldl (fuzzyStep fscore h) st).best = some e.1
  | [], st => Or.inl rfl
  | e :: rest, st => by
    rw [List.foldl_cons]
    rcases fuzzyFold_best fscore h rest (fuzzyStep fscore h st e) with h1 | ⟨e', he', h1⟩
    · rcases fuzzyStep_best fscore h st e with h2 | h2
      · exact Or.inl (h1.trans h2)
      · exact Or.inr ⟨e, List.mem_cons_self e rest, h1.trans h2⟩
    · exact Or.inr ⟨e', List.mem_cons_of_mem e he', h1⟩

theorem fuzzyTier_mem {fscore : List String → String → Option Rat} {h : String}
    {t : String} (ht : fuzzyTier fscore h = some t) : t ∈ TARGET_COLUMNS := by
  unfold fuzzyTier at ht
  rcases fuzzyFold_best fscore h COLUMN_MAPPINGS ⟨none, 0⟩ with h1 | ⟨e, he, h1⟩
  · rw [h1] at ht
    exact absurd ht (by simp)
  · rw [h1] at ht
    obtain rfl := Option.some.inj ht
    have hmap : COLUMN_MAPPINGS.map (fun e => e.1) = TARGET_COLUMNS := rfl
    exact hmap ▸ List.mem_map_of_mem (fun e => e.1) he

theorem exactTier_mem {h t : String} (ht : exactTier h = some t) : t ∈ TARGET_COLUMNS := by
  unfold exactTier at ht
  rcases List.exists_of_findSome?_eq_some ht with ⟨e, he, hf⟩
  split at hf
  · obtain rfl := Option.some.inj hf
    have hmap : COLUMN_MAPPINGS.map (fun e => e.1) = TARGET_COLUMNS := rfl
    exact hmap ▸ List.mem_map_of_mem (fun e => e.1) he
  · exact absurd hf (by simp)

theorem aiMapColumn_mem {fscore : List String → String → Option Rat} {header t : String}
    (ht : aiMapColumn fscore header = some t) : t ∈ TARGET_COLUMNS := by
  unfold aiMapColumn at ht
  rcases hx : exactTier (normalizeHeader header) with _ | t'
  · rw [hx] at ht
    exact fuzzyTier_mem ht
  · rw [hx] at ht
    obtain rfl := Option.some.inj ht
    exact exactTier_mem hx

theorem exactTier_of_mem (s t : String) (syns : List String)
    (hmem : (t, syns) ∈ COLUMN_MAPPINGS) (hs : s ∈ syns) : exactTier s = some t := by
  simp only [COLUMN_MAPPINGS, List.mem_cons, List.not_mem_nil, or_false,
    Prod.mk.injEq] at hmem
  rcases hmem with ⟨rfl, rfl⟩ | ⟨rfl, rfl⟩ | ⟨rfl, rfl⟩ | ⟨rfl, rfl⟩ <;>
    fin_cases hs <;> rfl

/-! ## Zip-branch lemmas -/

theorem buildRenamedCols_snd_mem (fscore : List String → String → Option Rat) :
    ∀ (headers : List String) (acc : List (String × String)),
      (∀ x ∈ acc, x.2 ∈ TARGET_COLUMNS) →
      ∀ x ∈ headers.foldl
        (fun acc col =>
          match aiMapColumn fscore col with
          | some m => strSet acc col m
          | none => acc) acc,
        x.2 ∈ TARGET_COLUMNS
  | [], _, hacc => hacc
  | col :: rest, acc, hacc => by
    rw [List.foldl_cons]
    apply buildRenamedCols_snd_mem fscore rest
    rcases hm : aiMapColumn fscore col with _ | m
    · exact hacc
    · intro x hx
      rcases mem_assocSet (show x ∈ assocSet acc col m from hx) with rfl | hx'
      · exact aiMapColumn_mem hm
      · exact hacc x hx'

theorem jsHasKey_copyPhase (row : Row) :
    ∀ (renamed : List (String × String)) (init : Row) (k : String),
      jsHasKey (renamed.foldl (fun nr oc => jsSet nr oc.2 (jsGet row oc.1)) init) k = true ↔
        jsHasKey init k = true ∨ k ∈ renamed.map (fun oc => oc.2)
  | [], init, k => by simp
  | oc :: rest, init, k => by
    rw [List.foldl_cons,
      jsHasKey_copyPhase row rest (jsSet init oc.2 (jsGet row oc.1)) k,
      jsHasKey_jsSet, List.map_cons, List.mem_cons]
    tauto

theorem jsHasKey_fillPhase :
    ∀ (targets : List String) (init : Row) (k : String),
      jsHasKey (targets.foldl
        (fun nr col => if jsHasKey nr col then nr else jsSet nr col JsVal.vNull) init) k
          = true ↔
        jsHasKey init k = true ∨ k ∈ targets
  | [], init, k => by simp
  | c :: rest, init, k => by
    rw [List.foldl_cons]
    by_cases hc : jsHasKey init c = true
    · rw [if_pos hc, jsHasKey_fillPhase rest init k, List.mem_cons]
      constructor
      · rintro (h | h)
        · exact Or.inl h
        · exact Or.inr (Or.inr h)
      · rintro (h | h | h)
        · exact Or.inl h
        · exact Or.inl (by rw [h]; exact hc)
        · exact Or.inr h
    · rw [if_neg hc, jsHasKey_fillPhase rest (jsSet init c JsVal.vNull) k,
        jsHasKey_jsSet, List.mem_cons]
      tauto

theorem jsGet_fillPhase_preserve :
    ∀ (targets : List String) (init : Row) (t : String), jsHasKey init t = true →
      jsGet (targets.foldl
        (fun nr col => if jsHasKey nr col then nr else jsSet nr col JsVal.vNull) init) t =
        jsGet init t
  | [], _, _, _ => rfl
  | c :: rest, init, t, h => by
    rw [List.foldl_cons]
    by_cases hc : jsHasKey init c = true
    · rw [if_pos hc]
      exact jsGet_fillPhase_preserve rest init t h
    · rw [if_neg hc]
      have hct : c ≠ t := fun hc' => hc (hc' ▸ h)
      rw [jsGet_fillPhase_preserve rest _ t (by rw [jsHasKey_jsSet]; exact Or.inr h)]
      exact jsGet_jsSet_ne init c JsVal.vNull t (fun h' => hct h'.symm)

theorem jsGet_fillPhase_sets :
    ∀ (targets : List String) (init : Row) (t : String),
      t ∈ targets → jsHasKey init t = false →
      jsGet (targets.foldl
        (fun nr col => if jsHasKey nr col then nr else jsSet nr col JsVal.vNull) init) t =
        JsVal.vNull
  | [], _, _, hmem, _ => absurd hmem (List.not_mem_nil _)
  | c :: rest, init, t, hmem, h => by
    rw [List.foldl_cons]
    by_cases hct : c = t
    · subst hct
      rw [if_neg (by rw [h]; exact Bool.false_ne_true)]
      have hk : jsHasKey (jsSet init c JsVal.vNull) c = true := by
        rw [jsHasKey_jsSet]
        exact Or.inl rfl
      rw [jsGet_fillPhase_preserve rest _ c hk, jsGet_jsSet_self]
    · have hmem' : t ∈ rest := by
        rcases List.mem_cons.mp hmem with h' | h'
        · exact absurd h'.symm hct
        · exact h'
      by_cases hc : jsHasKey init c = true
      · rw [if_pos hc]
        exact jsGet_fillPhase_sets rest init t hmem' h
      · rw [if_neg hc]
        apply jsGet_fillPhase_sets rest _ t hmem'
        have hne : ¬ jsHasKey (jsSet init c JsVal.vNull) t = true := by
          rw [jsHasKey_jsSet]
          rintro (h' | h')
          · exact hct h'.symm
          · rw [h] at h'
            exact Bool.false_ne_true h'
        exact Bool.eq_false_iff.mpr hne

theorem nodup_keys_copyPhase (row : Row) :
    ∀ (renamed : List (String × String)) (init : Row), (keys init).Nodup →
      (keys (renamed.foldl (fun nr oc => jsSet nr oc.2 (jsGet row oc.1)) init)).Nodup
  | [], _, h => h
  | oc :: rest, init, h => by
    rw [List.foldl_cons]
    exact nodup_keys_copyPhase row rest _ (nodup_fst_assocSet h)

theorem nodup_keys_fillPhase :
    ∀ (targets : List String) (init : Row), (keys init).Nodup →
      (keys (targets.foldl
        (fun nr col => if jsHasKey nr col then nr else jsSet nr col JsVal.vNull) init)).Nodup
  | [], _, h => h
  | c :: rest, init, h => by
    rw [List.foldl_cons]
    by_cases hc : jsHasKey init c = true
    · rw [if_pos hc]
      exact nodup_keys_fillPhase rest init h
    · rw [if_neg hc]
      exact nodup_keys_fillPhase rest _ (nodup_fst_assocSet h)

/-- Whether a character list contains two adjacent whitespace
characters (used to state the name-normalizer claims). -/
def hasConsecWhitespace (l : List Char) : Bool :=
  (l.zip l.tail).any (fun cc => isJsSpace cc.1 && isJsSpace cc.2)

theorem processZip_go (fscore : List String → String → Option Rat) :
    ∀ (entries : List ZipEntry) (acc : List Row × Nat),
      entries.foldl
        (fun acc e =>
          match e with
          | ZipEntry.decoded df => (acc.1 ++ mapTable fscore df, acc.2 + 1)
          | ZipEntry.failed => acc
          | ZipEntry.skipped => acc) acc =
        (acc.1 ++ ((decodedTables entries).map (mapTable fscore)).flatten,
         acc.2 + (decodedTables entries).length)
  | [], acc => by simp [decodedTables]
  | ZipEntry.decoded df :: es, acc => by
    rw [List.foldl_cons]
    rw [processZip_go fscore es (acc.1 ++ mapTable fscore df, acc.2 + 1)]
    refine congrArg₂ Prod.mk ?_ ?_
    · show acc.1 ++ mapTable fscore df ++
        ((decodedTables es).map (mapTable fscore)).flatten =
        acc.1 ++ (mapTable fscore df :: (decodedTables es).map (mapTable fscore)).flatten
      rw [List.flatten_cons, List.append_assoc]
    · show acc.2 + 1 + (decodedTables es).length = acc.2 + ((decodedTables es).length + 1)
      omega
  | ZipEntry.failed :: es, acc => by
    rw [List.foldl_cons]
    exact processZip_go fscore es acc
  | ZipEntry.skipped :: es, acc => by
    rw [List.foldl_cons]
    exact processZip_go fscore es acc

/-! ## Claim theorems -/

/-- C4: the claim says every field normalizer maps an explicitly null
raw value and an absent (undefined) raw value to the same result. The
name and contact normalizers do, but the date normalizer maps `null` to
`"1970-01-01"` (because `new Date(null)` is the epoch) while mapping
`undefined` to `null`, whatever the engine's string parser `p` does —
the code contradicts the documented rule, a code bug. -/
theorem c4_cleanDate_null_vs_absent (p : String → Option Int) :
    cleanDate p JsVal.vNull = JsVal.vStr "1970-01-01" ∧
    cleanDate p JsVal.vUndef = JsVal.vNull ∧
    cleanDate p JsVal.vNull ≠ cleanDate p JsVal.vUndef ∧
    cleanName JsVal.vNull = cleanName JsVal.vUndef ∧
    cleanPhone JsVal.vNull = cleanPhone JsVal.vUndef := by
  have h0 : cleanDate p JsVal.vNull = JsVal.vStr "1970-01-01" := rfl
  have h1 : cleanDate p JsVal.vUndef = JsVal.vNull := rfl
  refine ⟨h0, h1, ?_, rfl, rfl⟩
  rw [h0, h1]
  simp

/-- C5 counterexample: a record whose raw ADDRESS is present and equal
to the empty string (a falsy-but-present value). The claim says the
classified ADDRESS equals that raw value; the code's `row.ADDRESS || null`
turns it into `null`. -/
theorem c5_counterexample :
    jsHasKey [("ADDRESS", JsVal.vStr "")] "ADDRESS" = true ∧
    jsGet [("ADDRESS", JsVal.vStr "")] "ADDRESS" = JsVal.vStr "" ∧
    jsGet (cleanRow noParse [("ADDRESS", JsVal.vStr "")]) "ADDRESS" = JsVal.vNull ∧
    JsVal.vStr "" ≠ JsVal.vNull := by
  refine ⟨rfl, rfl, rfl, by simp⟩

/-- C5 amended: the classified ADDRESS equals the raw value exactly when
that value is truthy; when the raw ADDRESS is absent, null, or falsy
(empty string, the number 0), the classified ADDRESS is null. -/
theorem c5_address_truthy_passthrough (p : String → Option Int) (row : Row) :
    (jsTruthy (jsGet row "ADDRESS") = true →
      jsGet (cleanRow p row) "ADDRESS" = jsGet row "ADDRESS") ∧
    (jsTruthy (jsGet row "ADDRESS") = false →
      jsGet (cleanRow p row) "ADDRESS" = JsVal.vNull) := by
  constructor
  · intro h
    show (if jsTruthy (jsGet row "ADDRESS") then jsGet row "ADDRESS" else JsVal.vNull) = _
    rw [if_pos h]
  · intro h
    show (if jsTruthy (jsGet row "ADDRESS") then jsGet row "ADDRESS" else JsVal.vNull) = _
    rw [if_neg (by rw [h]; exact Bool.false_ne_true)]

/-- Witness for the C5 amended theorem at a concrete truthy address. -/
theorem c5_address_truthy_passthrough_witness :
    jsGet (cleanRow noParse [("ADDRESS", JsVal.vStr "x")]) "ADDRESS" =
      jsGet [("ADDRESS", JsVal.vStr "x")] "ADDRESS" :=
  (c5_address_truthy_passthrough noParse [("ADDRESS", JsVal.vStr "x")]).1 (by decide)

/-- C6 counterexample: the claim says the name normalizer splits on
whitespace runs and its output never contains consecutive whitespace.
On `"ab  cd"` (two spaces) the code's `split(' ')` produces an empty
middle token and `join(' ')` restores both spaces, so the output
`"Ab  Cd"` contains consecutive whitespace. -/
theorem c6_counterexample :
    cleanName (JsVal.vStr "ab  cd") = JsVal.vStr "Ab  Cd" ∧
    hasConsecWhitespace ("Ab  Cd".toList) = true := by
  refine ⟨by decide, by decide⟩

/-- C6 amended: for string inputs whose stripped and trimmed value is
non-empty, the name normalizer splits that value on single space
characters (empty tokens included), title-cases each token and rejoins
with single spaces; the result has exactly the same length as the
stripped value, so runs of spaces survive unchanged. -/
theorem c6_cleanName_single_space_split (s : String) (h : stripAndTrim s ≠ []) :
    cleanName (JsVal.vStr s) =
      JsVal.vStr (String.mk (joinSpace ((splitOnSpace (stripAndTrim s)).map titleCase))) ∧
    (joinSpace ((splitOnSpace (stripAndTrim s)).map titleCase)).length =
      (stripAndTrim s).length := by
  constructor
  · show (if stripAndTrim s = [] then JsVal.vNull
      else JsVal.vStr (String.mk (joinSpace ((splitOnSpace (stripAndTrim s)).map titleCase))))
        = _
    rw [if_neg h]
  · rw [joinSpace_map_titleCase_length, joinSpace_splitOnSpace]

/-- Witness for the C6 amended theorem at the double-space input. -/
theorem c6_cleanName_single_space_split_witness :
    stripAndTrim "ab  cd" ≠ [] ∧
    cleanName (JsVal.vStr "ab  cd") =
      JsVal.vStr
        (String.mk (joinSpace ((splitOnSpace (stripAndTrim "ab  cd")).map titleCase))) :=
  ⟨by decide, (c6_cleanName_single_space_split "ab  cd" (by decide)).1⟩

/-- C7: for every non-null (and non-absent) raw value, the contact
normalizer returns null exactly when fewer than 6 digit characters
remain after stripping non-digits, and otherwise returns exactly those
digit characters in their original order. -/
theorem c7_cleanPhone_digits (v : JsVal) (h1 : v ≠ JsVal.vNull) (h2 : v ≠ JsVal.vUndef) :
    (cleanPhone v = JsVal.vNull ↔
      ((jsToString v).toList.filter isDigitChar).length < 6) ∧
    (6 ≤ ((jsToString v).toList.filter isDigitChar).length →
      cleanPhone v = JsVal.vStr (String.mk ((jsToString v).toList.filter isDigitChar))) := by
  have hv : cleanPhone v =
      (if ((jsToString v).toList.filter isDigitChar).length > 5
        then JsVal.vStr (String.mk ((jsToString v).toList.filter isDigitChar))
        else JsVal.vNull) := by
    cases v with
    | vStr s => rfl
    | vNum n => rfl
    | vNull => exact absurd rfl h1
    | vUndef => exact absurd rfl h2
  rw [hv]
  by_cases hl : ((jsToString v).toList.filter isDigitChar).length > 5
  · rw [if_pos hl]
    refine ⟨⟨fun hx => absurd hx (by simp), fun hx => absurd hl (by omega)⟩, fun _ => rfl⟩
  · rw [if_neg hl]
    refine ⟨⟨fun _ => by omega, fun _ => rfl⟩, fun h6 => absurd hl (by omega)⟩

/-- Witness for C7 at the spec's own example `"555-12-34"`. -/
theorem c7_cleanPhone_digits_witness :
    cleanPhone (JsVal.vStr "555-12-34") =
      JsVal.vStr
        (String.mk ((jsToString (JsVal.vStr "555-12-34")).toList.filter isDigitChar)) :=
  (c7_cleanPhone_digits (JsVal.vStr "555-12-34") (by simp) (by simp)).2 (by decide)

/-- A mapped record whose four raw values are all non-null (DATE is the
explicit JS `null`, which the date normalizer turns into the non-null
string "1970-01-01"): used against C1. -/
def c1row : Row :=
  [("DATE", JsVal.vNull), ("FULL NAME", JsVal.vStr "john"),
   ("CONTACT", JsVal.vStr "5551234"), ("ADDRESS", JsVal.vStr "x")]

/-- C1 counterexample: on `c1row` the status is "Missing Fields" (the
raw DATE is null) although all four NORMALIZED values are non-null — so
the status is not the claimed iff over post-normalization values. The
raw DATE is `null`, not a string, so this holds for every engine date
parser. -/
theorem c1_counterexample :
    jsGet (cleanRow noParse c1row) "DATA_STATUS" = JsVal.vStr "Missing Fields" ∧
    jsGet (cleanRow noParse c1row) "DATE" = JsVal.vStr "1970-01-01" ∧
    jsGet (cleanRow noParse c1row) "FULL NAME" = JsVal.vStr "John" ∧
    jsGet (cleanRow noParse c1row) "CONTACT" = JsVal.vStr "5551234" ∧
    jsGet (cleanRow noParse c1row) "ADDRESS" = JsVal.vStr "x" := by
  refine ⟨rfl, rfl, rfl, rfl, rfl⟩

/-- C1 amended: the status tag is "Missing Fields" exactly when at least
one value of the PRE-normalization row is (strictly) null; it is
computed from the raw values before normalization, and is always one of
the two status strings. -/
theorem c1_status_from_prenormalization (p : String → Option Int) (row : Row) :
    (jsGet (cleanRow p row) "DATA_STATUS" = JsVal.vStr "Missing Fields" ↔
      JsVal.vNull ∈ jsValues row) ∧
    (jsGet (cleanRow p row) "DATA_STATUS" = JsVal.vStr "Missing Fields" ∨
      jsGet (cleanRow p row) "DATA_STATUS" = JsVal.vStr "Valid") := by
  have hds : jsGet (cleanRow p row) "DATA_STATUS" = dataStatus row := rfl
  rw [hds]
  unfold dataStatus
  by_cases h : (jsValues row).any (fun v => v = JsVal.vNull) = true
  · rw [if_pos h]
    refine ⟨⟨fun _ => ?_, fun _ => rfl⟩, Or.inl rfl⟩
    rcases List.any_eq_true.mp h with ⟨v, hv, hveq⟩
    rw [decide_eq_true_eq] at hveq
    exact hveq ▸ hv
  · rw [if_neg h]
    refine ⟨⟨fun hx => absurd hx (by simp), fun hx => ?_⟩, Or.inr rfl⟩
    exact absurd (List.any_eq_true.mpr ⟨JsVal.vNull, hx, by simp⟩) h

/-- First of two classified records sharing an identity key (they
differ in ADDRESS): used against C2. -/
def c2raw1 : Row :=
  [("DATE", JsVal.vNull), ("FULL NAME", JsVal.vStr "john"),
   ("CONTACT", JsVal.vStr "5551234"), ("ADDRESS", JsVal.vStr "a")]

/-- Second of two classified records sharing an identity key. -/
def c2raw2 : Row :=
  [("DATE", JsVal.vNull), ("FULL NAME", JsVal.vStr "john"),
   ("CONTACT", JsVal.vStr "5551234"), ("ADDRESS", JsVal.vStr "b")]

/-- C2 counterexample: two classified records share one identity key but
differ in ADDRESS; deduplication outputs the SECOND (last-seen) record,
not the first-seen one the claim promises. -/
theorem c2_counterexample :
    identityKey (cleanRow noParse c2raw1) = identityKey (cleanRow noParse c2raw2) ∧
    cleanRow noParse c2raw1 ≠ cleanRow noParse c2raw2 ∧
    dedupe [cleanRow noParse c2raw1, cleanRow noParse c2raw2] =
      [cleanRow noParse c2raw2] ∧
    dedupe [cleanRow noParse c2raw1, cleanRow noParse c2raw2] ≠
      [cleanRow noParse c2raw1] := by
  refine ⟨rfl, by decide, by decide, by decide⟩

/-- C2 amended: deduplication keeps one record per identity key, at the
relative position where that key was FIRST seen, but the record kept is
the LAST-seen record with that key (later duplicates overwrite the
`Map` value); every other record sharing the key is dropped. -/
theorem c2_dedupe_keeps_last_seen (rows : List Row) :
    dedupe rows = (firstSeenKeys rows).map (lastRecordWithKey rows) := by
  unfold dedupe
  rw [dedupeMap_spec, List.map_map]
  rfl

/-- C3 counterexample: a single uploaded CSV (not inside a zip) with the
mappable header "Mobile" is passed to cleaning with its raw header — no
Column Mapper, no reshaping to the four target keys. -/
theorem c3_counterexample :
    (processSingleCsv "Mobile\n5551234").1 = [[("Mobile", JsVal.vStr "5551234")]] ∧
    jsHasKey [("Mobile", JsVal.vStr "5551234")] "CONTACT" = false ∧
    keys [("Mobile", JsVal.vStr "5551234")] ≠ TARGET_COLUMNS := by
  refine ⟨by decide, rfl, by decide⟩

/-- C3 amended: only tables inside a zip bundle are reshaped. For those,
headers are mapped once per table and every reshaped row has exactly the
four target keys (no extras, no duplicates), with each target that no
header mapped to set explicitly to null; rows of a single uploaded
CSV/XLSX file keep their raw headers. -/
theorem c3_zip_rows_have_exact_target_keys (fscore : List String → String → Option Rat)
    (headers : List String) (raw : Row) :
    (∀ k, jsHasKey (mapZipRow (buildRenamedCols fscore headers) raw) k = true ↔
      k ∈ TARGET_COLUMNS) ∧
    (keys (mapZipRow (buildRenamedCols fscore headers) raw)).Nodup ∧
    (∀ t, t ∈ TARGET_COLUMNS →
      t ∉ (buildRenamedCols fscore headers).map (fun oc => oc.2) →
      jsGet (mapZipRow (buildRenamedCols fscore headers) raw) t = JsVal.vNull) := by
  unfold mapZipRow
  refine ⟨?_, ?_, ?_⟩
  · intro k
    rw [jsHasKey_fillPhase, jsHasKey_copyPhase]
    constructor
    · rintro ((h | h) | h)
      · simp [jsHasKey] at h
      · rcases List.mem_map.mp h with ⟨oc, hoc, rfl⟩
        exact buildRenamedCols_snd_mem fscore headers []
          (fun x hx => absurd hx (List.not_mem_nil x)) oc hoc
      · exact h
    · intro h
      exact Or.inr h
  · exact nodup_keys_fillPhase TARGET_COLUMNS _
      (nodup_keys_copyPhase raw _ [] List.nodup_nil)
  · intro t htmem hnot
    apply jsGet_fillPhase_sets _ _ t htmem
    rw [Bool.eq_false_iff]
    intro hk
    rw [jsHasKey_copyPhase] at hk
    rcases hk with h | h
    · simp [jsHasKey] at h
    · exact hnot h

/-- Witness for the C3 amended theorem: a zip-table row with the single
header "Mobile" (mapped to CONTACT) gets DATE filled with null. -/
theorem c3_zip_rows_witness :
    jsGet (mapZipRow (buildRenamedCols noScore ["Mobile"])
      [("Mobile", JsVal.vStr "x")]) "DATE" = JsVal.vNull :=
  (c3_zip_rows_have_exact_target_keys noScore ["Mobile"]
    [("Mobile", JsVal.vStr "x")]).2.2 "DATE" (by decide) (by decide)

/-- C8: a header that, lowercased and trimmed, exactly equals a synonym
configured for a target field is mapped to that field by the exact tier,
before (and regardless of) any fuzzy matching `fscore`. -/
theorem c8_exact_synonym_wins (fscore : List String → String → Option Rat)
    (header t : String) (syns : List String)
    (hmem : (t, syns) ∈ COLUMN_MAPPINGS) (hsyn : normalizeHeader header ∈ syns) :
    aiMapColumn fscore header = some t := by
  unfold aiMapColumn
  rw [exactTier_of_mem _ t syns hmem hsyn]

/-- Witness for C8: the header " Phone " (mixed case, padded) maps to
CONTACT whatever the fuzzy scorer does. -/
theorem c8_exact_synonym_wins_witness :
    aiMapColumn noScore " Phone " = some "CONTACT" :=
  c8_exact_synonym_wins noScore " Phone " "CONTACT"
    ["phone", "mobile", "cell", "tel", "contact number", "number"]
    (by decide) (by decide)

/-- C9: the zip branch's per-file try/catch isolates failures: the
accumulated records are exactly the reshaped rows of the successfully
decoded tables in order, and `filesProcessed` equals the number of
successfully decoded tables; failed or skipped entries contribute
nothing, and the loop is a total function, so no error reaches the
caller. -/
theorem c9_zip_error_isolation (fscore : List String → String → Option Rat)
    (entries : List ZipEntry) :
    processZip fscore entries =
      (((decodedTables entries).map (mapTable fscore)).flatten,
        (decodedTables entries).length) := by
  unfold processZip
  rw [processZip_go fscore entries ([], 0)]
  exact congrArg₂ Prod.mk (List.nil_append _) (Nat.zero_add _)

/-- C10: every record of the final output — whatever rows the branches
accumulated — has exactly the five keys DATE, FULL NAME, CONTACT,
ADDRESS, DATA_STATUS in order, and DATA_STATUS is one of the two status
strings. -/
theorem c10_output_shape (p : String → Option Int) (allData : List Row) (r : Row)
    (hr : r ∈ cleanAndDedupe p allData) :
    keys r = ["DATE", "FULL NAME", "CONTACT", "ADDRESS", "DATA_STATUS"] ∧
    (jsGet r "DATA_STATUS" = JsVal.vStr "Missing Fields" ∨
      jsGet r "DATA_STATUS" = JsVal.vStr "Valid") := by
  unfold cleanAndDedupe at hr
  rcases List.mem_map.mp (mem_dedupe hr) with ⟨raw, _, rfl⟩
  refine ⟨rfl, ?_⟩
  have hds : jsGet (cleanRow p raw) "DATA_STATUS" = dataStatus raw := rfl
  rw [hds]
  unfold dataStatus
  by_cases h : (jsValues raw).any (fun v => v = JsVal.vNull) = true
  · rw [if_pos h]
    exact Or.inl rfl
  · rw [if_neg h]
    exact Or.inr rfl

/-- Witness for C10 on a one-row batch. -/
theorem c10_output_shape_witness :
    keys (cleanRow noParse []) = ["DATE", "FULL NAME", "CONTACT", "ADDRESS", "DATA_STATUS"] ∧
    (jsGet (cleanRow noParse []) "DATA_STATUS" = JsVal.vStr "Missing Fields" ∨
      jsGet (cleanRow noParse []) "DATA_STATUS" = JsVal.vStr "Valid") :=
  c10_output_shape noParse [[]] (cleanRow noParse []) (by decide)

end DataExtraction
